import Mathlib

/-!
Verification of the angular zone-detection and damped-rotation control
subsystem of the zayd.world repository.

The JavaScript source is shallowly embedded: JS numbers become real
numbers, the JS `%` remainder (truncated division) becomes `jsRem`,
`Math.exp` becomes `Real.exp`, and the `Zones` / `Controls` classes become
structures with pure transition functions.
-/

namespace ZaydWorld

open Real

/-- The JS remainder operator `x % y`: `x - y * trunc (x / y)`, where
`trunc` rounds toward zero (floor for a nonnegative quotient, ceiling for
a negative one). -/
noncomputable def jsRem (x y : ℝ) : ℝ :=
  if 0 ≤ x / y then x - y * ⌊x / y⌋ else x - y * ⌈x / y⌉

/-- `TWO_PI` from src/utils/physics.js and src/components/Controls.js:
`Math.PI * 2`. -/
noncomputable def TWO_PI : ℝ := Real.pi * 2

/-- `normalizeAngle` from src/utils/physics.js: take `angle % TWO_PI`,
then add `TWO_PI` if the result is below `-π`, then subtract `TWO_PI` if
the result is above `π`. -/
noncomputable def normalizeAngle (angle : ℝ) : ℝ :=
  let r1 := jsRem angle TWO_PI
  let r2 := if r1 < -π then r1 + TWO_PI else r1
  if r2 > π then r2 - TWO_PI else r2

/-- `dampAngle` from src/utils/physics.js: advance `current` toward
`target` by the normalized difference scaled by `1 - exp (-smoothing * delta)`. -/
noncomputable def dampAngle (current target smoothing delta : ℝ) : ℝ :=
  current + normalizeAngle (target - current) * (1 - Real.exp (-smoothing * delta))

/-- A location record (static content): the degree-valued fields consumed
by the `Zones` constructor. -/
structure Location where
  id : String
  startAngleDeg : ℝ
  endAngleDeg : ℝ

/-- A zone as stored by the `Zones` class: the location id together with
the radian-valued `startRad` / `endRad` fields added by the constructor. -/
structure Zone where
  id : String
  startRad : ℝ
  endRad : ℝ

/-- The per-location body of the `Zones` constructor from
src/components/Controls.js: `startRad = startAngleDeg * π / 180`,
`endRad = endAngleDeg * π / 180` (pure conversion, no normalization). -/
noncomputable def locToZone (l : Location) : Zone :=
  { id := l.id
    startRad := l.startAngleDeg * π / 180
    endRad := l.endAngleDeg * π / 180 }

/-- The `Zones` class: an ordered list of converted zones. -/
structure Zones where
  zones : List Zone

/-- The `Zones` constructor: maps the conversion over the input list.
It accepts any list, the empty list included. -/
noncomputable def Zones.ofLocations (locs : List Location) : Zones :=
  ⟨locs.map locToZone⟩

/-- `Zones.isWithinZone` from src/components/Controls.js: for
`startRad <= endRad` the angle is inside iff `startRad <= angle < endRad`;
otherwise (wrapped zone) iff `angle >= startRad || angle < endRad`. -/
noncomputable def Zones.isWithinZone (angle : ℝ) (zone : Zone) : Bool :=
  if zone.startRad ≤ zone.endRad then
    decide (zone.startRad ≤ angle ∧ angle < zone.endRad)
  else
    decide (zone.startRad ≤ angle ∨ angle < zone.endRad)

/-- The inline normalization in `Zones.getActiveZone`:
`((rotationY % TWO_PI) + TWO_PI) % TWO_PI`. -/
noncomputable def zoneNormalize (rotationY : ℝ) : ℝ :=
  jsRem (jsRem rotationY TWO_PI + TWO_PI) TWO_PI

/-- `Zones.getActiveZone` from src/components/Controls.js: `null` on an
empty zone list; otherwise the first zone containing the normalized
rotation, with the first zone of the list as fallback (`find(...) ?? zones[0]`). -/
noncomputable def Zones.getActiveZone (zs : Zones) (rotationY : ℝ) : Option Zone :=
  match zs.zones with
  | [] => none
  | z0 :: rest =>
    let normalized := zoneNormalize rotationY
    some (((z0 :: rest).find? fun zone => Zones.isWithinZone normalized zone).getD z0)

/-- The key codes distinguished by the `Controls` key handlers. -/
inductive KeyCode where
  | arrowLeft
  | keyA
  | arrowRight
  | keyD
  | other
deriving DecidableEq

/-- `Controls.handleKeyDown` from src/components/Controls.js, acting on the
`direction` field: a left key writes `-1`, then a right key writes `1`
(two sequential `if`s, no `else`). -/
def handleKeyDown (direction : Int) (code : KeyCode) : Int :=
  let d1 := if code = KeyCode.arrowLeft ∨ code = KeyCode.keyA then -1 else direction
  if code = KeyCode.arrowRight ∨ code = KeyCode.keyD then 1 else d1

/-- `Controls.handleKeyUp` from src/components/Controls.js: a left key-up
clears `direction` only when it currently equals `-1`; then a right key-up
clears it only when it currently equals `1`. -/
def handleKeyUp (direction : Int) (code : KeyCode) : Int :=
  let d1 :=
    if (code = KeyCode.arrowLeft ∨ code = KeyCode.keyA) ∧ direction = -1 then 0
    else direction
  if (code = KeyCode.arrowRight ∨ code = KeyCode.keyD) ∧ d1 = 1 then 0 else d1

/-- The validation in `App.init` (src/app.js): an empty location list is
rejected with `No locations data available` before `new Zones(locations)`
runs. -/
def validateLocations (locs : List Location) : Except String (List Location) :=
  if locs.length = 0 then Except.error "No locations data available"
  else Except.ok locs

/-- The init-time construction path of src/app.js: validate the fetched
locations, then build the `Zones`. -/
noncomputable def initZones (locs : List Location) : Except String Zones :=
  (validateLocations locs).map Zones.ofLocations

/-- Iterated damping: the frame loop's repeated
`current = dampAngle(current, target, smoothing, delta)`. -/
noncomputable def dampIter (target smoothing delta current : ℝ) : ℕ → ℝ
  | 0 => current
  | n + 1 => dampAngle (dampIter target smoothing delta current n) target smoothing delta

/-- Angular distance from `current` to `target`: the absolute value of the
normalized shortest difference, as used by the damper. -/
noncomputable def angularDist (current target : ℝ) : ℝ :=
  |normalizeAngle (target - current)|

/-- Static content record src/locations/about.js. -/
def aboutLoc : Location := ⟨"about", 315, 45⟩

/-- Static content record from the projects location file. -/
def projectsLoc : Location := ⟨"projects", 45, 150⟩

/-- Static content record src/locations/labs.js. -/
def labsLoc : Location := ⟨"labs", 150, 255⟩

/-- Static content record from the contact location file. -/
def contactLoc : Location := ⟨"contact", 255, 315⟩

/-- The location list exported by the locations index module. -/
def locations : List Location := [aboutLoc, projectsLoc, labsLoc, contactLoc]

lemma two_pi_pos : 0 < TWO_PI := by
  unfold TWO_PI
  positivity

lemma jsRem_mem_of_nonneg {x y : ℝ} (hy : 0 < y) (hx : 0 ≤ x) :
    0 ≤ jsRem x y ∧ jsRem x y < y := by
  have hq : 0 ≤ x / y := div_nonneg hx hy.le
  have hfl : (⌊x / y⌋ : ℝ) ≤ x / y := Int.floor_le _
  have hfu : x / y < ⌊x / y⌋ + 1 := Int.lt_floor_add_one _
  have hxy : y * (x / y) = x := mul_div_cancel₀ x hy.ne'
  unfold jsRem
  rw [if_pos hq]
  constructor
  · nlinarith [mul_le_mul_of_nonneg_left hfl hy.le]
  · nlinarith [mul_lt_mul_of_pos_left hfu hy]

lemma jsRem_mem_of_neg {x y : ℝ} (hy : 0 < y) (hx : x < 0) :
    -y < jsRem x y ∧ jsRem x y ≤ 0 := by
  have hq : ¬ 0 ≤ x / y := by
    rw [not_le]
    exact div_neg_of_neg_of_pos hx hy
  have hcl : x / y ≤ ⌈x / y⌉ := Int.le_ceil _
  have hcu : (⌈x / y⌉ : ℝ) - 1 < x / y := by
    have := Int.ceil_lt_add_one (x / y)
    linarith
  have hxy : y * (x / y) = x := mul_div_cancel₀ x hy.ne'
  unfold jsRem
  rw [if_neg hq]
  constructor
  · nlinarith [mul_lt_mul_of_pos_left hcu hy]
  · nlinarith [mul_le_mul_of_nonneg_left hcl hy.le]

lemma jsRem_sub_int (x y : ℝ) : ∃ k : ℤ, jsRem x y = x - y * k := by
  unfold jsRem
  by_cases h : 0 ≤ x / y
  · exact ⟨⌊x / y⌋, by rw [if_pos h]⟩
  · exact ⟨⌈x / y⌉, by rw [if_neg h]⟩

lemma jsRem_mem_open {x y : ℝ} (hy : 0 < y) : -y < jsRem x y ∧ jsRem x y < y := by
  rcases le_or_lt 0 x with hx | hx
  · obtain ⟨h1, h2⟩ := jsRem_mem_of_nonneg hy hx
    exact ⟨by linarith, h2⟩
  · obtain ⟨h1, h2⟩ := jsRem_mem_of_neg hy hx
    exact ⟨h1, by linarith⟩

lemma normalizeAngle_eq (a : ℝ) :
    normalizeAngle a =
      if (if jsRem a TWO_PI < -π then jsRem a TWO_PI + TWO_PI else jsRem a TWO_PI) > π then
        (if jsRem a TWO_PI < -π then jsRem a TWO_PI + TWO_PI else jsRem a TWO_PI) - TWO_PI
      else
        (if jsRem a TWO_PI < -π then jsRem a TWO_PI + TWO_PI else jsRem a TWO_PI) := rfl

lemma normalizeAngle_mem (a : ℝ) :
    -π ≤ normalizeAngle a ∧ normalizeAngle a ≤ π := by
  have hpi : 0 < π := Real.pi_pos
  have h2 : TWO_PI = 2 * π := by unfold TWO_PI; ring
  obtain ⟨hl, hu⟩ := jsRem_mem_open (x := a) two_pi_pos
  rw [normalizeAngle_eq]
  by_cases hc1 : jsRem a TWO_PI < -π
  · rw [if_pos hc1]
    rw [if_neg (by rw [h2] at hc1 ⊢; push_neg; linarith)]
    constructor <;> [linarith [h2 ▸ hl]; linarith [h2 ▸ hc1]]
  · rw [if_neg hc1]
    push_neg at hc1
    by_cases hc2 : jsRem a TWO_PI > π
    · rw [if_pos hc2]
      constructor <;> [linarith [h2 ▸ hc2]; linarith [h2 ▸ hu]]
    · rw [if_neg hc2]
      push_neg at hc2
      exact ⟨hc1, hc2⟩

lemma normalizeAngle_sub_int (a : ℝ) :
    ∃ k : ℤ, normalizeAngle a = a - TWO_PI * k := by
  obtain ⟨k, hk⟩ := jsRem_sub_int a TWO_PI
  rw [normalizeAngle_eq]
  by_cases hc1 : jsRem a TWO_PI < -π
  · rw [if_pos hc1]
    by_cases hc2 : jsRem a TWO_PI + TWO_PI > π
    · rw [if_pos hc2]
      exact ⟨k, by rw [hk]; ring⟩
    · rw [if_neg hc2]
      exact ⟨k - 1, by rw [hk]; push_cast; ring⟩
  · rw [if_neg hc1]
    by_cases hc2 : jsRem a TWO_PI > π
    · rw [if_pos hc2]
      exact ⟨k + 1, by rw [hk]; push_cast; ring⟩
    · rw [if_neg hc2]
      exact ⟨k, hk⟩

lemma int_mul_cancel {c : ℝ} (hc : 0 < c) {j : ℤ} (h : c * |(j : ℝ)| < c) :
    j = 0 := by
  have habs : |(j : ℝ)| < 1 := by
    by_contra hge
    push_neg at hge
    nlinarith
  have h2 : ((|j| : ℤ) : ℝ) < 1 := by rwa [Int.cast_abs]
  have h3 : |j| < 1 := by exact_mod_cast h2
  exact Int.abs_lt_one_iff.mp h3

lemma normalizeAngle_eq_of {a y : ℝ} (h1 : -π < y) (h2 : y < π)
    (hk : ∃ k : ℤ, a = y + TWO_PI * k) : normalizeAngle a = y := by
  obtain ⟨k, hka⟩ := hk
  obtain ⟨m, hm⟩ := normalizeAngle_sub_int a
  obtain ⟨hl, hu⟩ := normalizeAngle_mem a
  have h2pi : TWO_PI = 2 * π := by unfold TWO_PI; ring
  have hdiff : normalizeAngle a - y = TWO_PI * ((k : ℝ) - m) := by
    rw [hm, hka]; ring
  have hbound : TWO_PI * |((k - m : ℤ) : ℝ)| < TWO_PI := by
    push_cast
    rcases abs_cases ((k : ℝ) - m) with ⟨he, _⟩ | ⟨he, _⟩ <;> rw [he] <;>
      nlinarith [hdiff, h2pi, Real.pi_pos]
  have hzero : (k - m : ℤ) = 0 := int_mul_cancel two_pi_pos hbound
  have : (k : ℝ) = m := by
    have : ((k - m : ℤ) : ℝ) = 0 := by exact_mod_cast congrArg (fun z : ℤ => (z : ℝ)) hzero
    push_cast at this
    linarith
  rw [hm, hka, this]; ring

lemma zoneNormalize_mem (r : ℝ) :
    0 ≤ zoneNormalize r ∧ zoneNormalize r < TWO_PI := by
  obtain ⟨hl, hu⟩ := jsRem_mem_open (x := r) two_pi_pos
  have hin : 0 ≤ jsRem r TWO_PI + TWO_PI := by linarith
  exact jsRem_mem_of_nonneg two_pi_pos hin

lemma zoneNormalize_sub_int (r : ℝ) :
    ∃ k : ℤ, zoneNormalize r = r - TWO_PI * k := by
  obtain ⟨k1, hk1⟩ := jsRem_sub_int r TWO_PI
  obtain ⟨k2, hk2⟩ := jsRem_sub_int (jsRem r TWO_PI + TWO_PI) TWO_PI
  exact ⟨k1 + k2 - 1, by
    unfold zoneNormalize
    rw [hk2, hk1]
    push_cast
    ring⟩

lemma zoneNormalize_eq_of {r y : ℝ} (h1 : 0 ≤ y) (h2 : y < TWO_PI)
    (hk : ∃ k : ℤ, r = y + TWO_PI * k) : zoneNormalize r = y := by
  obtain ⟨k, hka⟩ := hk
  obtain ⟨m, hm⟩ := zoneNormalize_sub_int r
  obtain ⟨hl, hu⟩ := zoneNormalize_mem r
  have hdiff : zoneNormalize r - y = TWO_PI * ((k : ℝ) - m) := by
    rw [hm, hka]; ring
  have hbound : TWO_PI * |((k - m : ℤ) : ℝ)| < TWO_PI := by
    push_cast
    rcases abs_cases ((k : ℝ) - m) with ⟨he, _⟩ | ⟨he, _⟩ <;> rw [he] <;>
      nlinarith [hdiff]
  have hzero : (k - m : ℤ) = 0 := int_mul_cancel two_pi_pos hbound
  have : (k : ℝ) = m := by
    have : ((k - m : ℤ) : ℝ) = 0 := by exact_mod_cast congrArg (fun z : ℤ => (z : ℝ)) hzero
    push_cast at this
    linarith
  rw [hm, hka, this]; ring

lemma zoneNormalize_periodic (a : ℝ) (k : ℤ) :
    zoneNormalize (a + TWO_PI * k) = zoneNormalize a := by
  obtain ⟨m, hm⟩ := zoneNormalize_sub_int a
  obtain ⟨hl, hu⟩ := zoneNormalize_mem a
  exact zoneNormalize_eq_of hl hu ⟨k + m, by rw [hm] at *; push_cast; linarith [hm]⟩

lemma dampAngle_zero_dt (c t s : ℝ) : dampAngle c t s 0 = c := by
  unfold dampAngle
  rw [mul_zero, Real.exp_zero]
  ring

lemma damp_step_normalize (c t s dt : ℝ) (h : 0 < s * dt) :
    normalizeAngle (t - dampAngle c t s dt) =
      Real.exp (-s * dt) * normalizeAngle (t - c) := by
  have hpi : 0 < π := Real.pi_pos
  set e := Real.exp (-s * dt) with he
  have hepos : 0 < e := Real.exp_pos _
  have helt : e < 1 := by
    rw [he, Real.exp_lt_one_iff]
    nlinarith
  set d := normalizeAngle (t - c) with hd
  obtain ⟨hdl, hdu⟩ := normalizeAngle_mem (t - c)
  obtain ⟨k, hk⟩ := normalizeAngle_sub_int (t - c)
  have htc : t - c = d + TWO_PI * k := by
    rw [hd]
    linarith [hk]
  have harg : t - dampAngle c t s dt = e * d + TWO_PI * k := by
    unfold dampAngle
    rw [← hd, ← he]
    linear_combination htc
  have h2 : TWO_PI = 2 * π := by unfold TWO_PI; ring
  have hl : -π < e * d := by nlinarith
  have hu : e * d < π := by nlinarith
  rw [mul_comm e d] at hl hu ⊢
  exact normalizeAngle_eq_of hl hu ⟨k, by rw [harg, mul_comm e d]⟩

lemma damp_factor_mem {s dt : ℝ} (hs : 0 ≤ s) (hdt : 0 ≤ dt) :
    0 < Real.exp (-s * dt) ∧ Real.exp (-s * dt) ≤ 1 :=
  ⟨Real.exp_pos _, by rw [Real.exp_le_one_iff]; nlinarith⟩

lemma normalizeAngle_neg_pi : normalizeAngle (-π) = -π := by
  have hpi := Real.pi_pos
  have h2 : TWO_PI = 2 * π := by unfold TWO_PI; ring
  have hdiv : (-π) / TWO_PI = -(1 / 2) := by
    rw [h2, div_eq_iff (by positivity)]
    ring
  have hq : ¬ 0 ≤ (-π) / TWO_PI := by rw [hdiv]; norm_num
  have hceil : ⌈(-π) / TWO_PI⌉ = 0 := by
    rw [hdiv]
    norm_num
  have hrem : jsRem (-π) TWO_PI = -π := by
    unfold jsRem
    rw [if_neg hq, hceil]
    push_cast
    ring
  rw [normalizeAngle_eq, hrem]
  rw [if_neg (lt_irrefl (-π))]
  rw [if_neg (by push_neg; linarith)]

/-- C1: zone containment semantics of `Zones.isWithinZone`: a non-wrapped
range (`startRad <= endRad`) contains `a` iff `startRad <= a < endRad`,
a wrapped range (`startRad > endRad`) contains `a` iff
`a >= startRad` or `a < endRad`, and a range with `startRad = endRad`
contains no angle. -/
theorem zone_containment (z : Zone) (a : ℝ) :
    (Zones.isWithinZone a z = true ↔
      ((z.startRad ≤ z.endRad ∧ z.startRad ≤ a ∧ a < z.endRad) ∨
       (z.endRad < z.startRad ∧ (z.startRad ≤ a ∨ a < z.endRad))))
    ∧ (z.startRad = z.endRad → Zones.isWithinZone a z = false) := by
  unfold Zones.isWithinZone
  constructor
  · by_cases h : z.startRad ≤ z.endRad
    · rw [if_pos h]
      simp only [decide_eq_true_eq]
      constructor
      · intro hh
        exact Or.inl ⟨h, hh⟩
      · rintro (⟨_, hh⟩ | ⟨hlt, _⟩)
        · exact hh
        · linarith
    · rw [if_neg h]
      push_neg at h
      simp only [decide_eq_true_eq]
      constructor
      · intro hh
        exact Or.inr ⟨h, hh⟩
      · rintro (⟨hle, _⟩ | ⟨_, hh⟩)
        · linarith
        · exact hh
  · intro he
    rw [if_pos he.le, decide_eq_false_iff_not]
    rintro ⟨h1, h2⟩
    rw [he] at h1
    linarith

/-- C7: key-interleaving invariant of the `Controls` input aggregator: a
key-down for a left key always writes `-1` and for a right key always
writes `1` (last write wins); a key-up clears the direction only when
that key's direction is the currently active one; the sequence press-left,
press-right, release-left leaves the direction at `1`. -/
theorem key_interleaving :
    (∀ d : Int,
      handleKeyDown d KeyCode.arrowLeft = -1 ∧ handleKeyDown d KeyCode.keyA = -1 ∧
      handleKeyDown d KeyCode.arrowRight = 1 ∧ handleKeyDown d KeyCode.keyD = 1)
    ∧ (∀ (d : Int) (code : KeyCode),
        handleKeyUp d code =
          if ((code = KeyCode.arrowLeft ∨ code = KeyCode.keyA) ∧ d = -1) ∨
             ((code = KeyCode.arrowRight ∨ code = KeyCode.keyD) ∧ d = 1) then 0 else d)
    ∧ handleKeyUp (handleKeyDown (handleKeyDown 0 KeyCode.arrowLeft) KeyCode.arrowRight)
        KeyCode.arrowLeft = 1 := by
  refine ⟨fun d => ?_, fun d code => ?_, by decide⟩
  · refine ⟨?_, ?_, ?_, ?_⟩ <;> simp [handleKeyDown]
  · cases code <;> simp [handleKeyUp]

/-- C10: the damper never overshoots: for `smoothingRate >= 0` and
`dt >= 0` the returned angle lies on the arc from `current` to
`current + d` where `d` is the normalized shortest difference — the step
has the sign of `d` and magnitude at most `|d|`. -/
theorem damp_no_overshoot (c t s dt : ℝ) (hs : 0 ≤ s) (hdt : 0 ≤ dt) :
    |dampAngle c t s dt - c| ≤ |normalizeAngle (t - c)| ∧
    0 ≤ (dampAngle c t s dt - c) * normalizeAngle (t - c) ∧
    min c (c + normalizeAngle (t - c)) ≤ dampAngle c t s dt ∧
    dampAngle c t s dt ≤ max c (c + normalizeAngle (t - c)) := by
  obtain ⟨hepos, hele⟩ := damp_factor_mem hs hdt
  set d := normalizeAngle (t - c) with hd
  set e := Real.exp (-s * dt) with he
  have hstep : dampAngle c t s dt - c = d * (1 - e) := by
    unfold dampAngle
    rw [← hd, ← he]
    ring
  have hresult : dampAngle c t s dt = c + d * (1 - e) := by linarith [hstep]
  refine ⟨?_, ?_, ?_, ?_⟩
  · rw [hstep, abs_mul, abs_of_nonneg (by linarith : (0:ℝ) ≤ 1 - e)]
    nlinarith [abs_nonneg d]
  · rw [hstep]
    nlinarith [sq_nonneg d]
  · rcases le_total 0 d with hdn | hdn
    · rw [min_eq_left (by linarith), hresult]
      nlinarith
    · rw [min_eq_right (by linarith), hresult]
      nlinarith
  · rcases le_total 0 d with hdn | hdn
    · rw [max_eq_right (by linarith), hresult]
      nlinarith
    · rw [max_eq_left (by linarith), hresult]
      nlinarith

/-- Witness for `damp_no_overshoot` at `current = 0`, `target = 1`,
`smoothingRate = 1`, `dt = 1`. -/
theorem damp_no_overshoot_witness :
    (0:ℝ) ≤ 1 ∧
    (|dampAngle 0 1 1 1 - 0| ≤ |normalizeAngle (1 - 0)| ∧
     0 ≤ (dampAngle 0 1 1 1 - 0) * normalizeAngle (1 - 0) ∧
     min 0 (0 + normalizeAngle (1 - 0)) ≤ dampAngle 0 1 1 1 ∧
     dampAngle 0 1 1 1 ≤ max 0 (0 + normalizeAngle (1 - 0))) :=
  ⟨by norm_num, damp_no_overshoot 0 1 1 1 (by norm_num) (by norm_num)⟩

/-- C3 counterexample: at `current = 0`, `target = -π` the raw difference
is `-π`, which `normalizeAngle` keeps at `-π` rather than mapping into the
half-open interval `(-π, π]` (whose representative would be `π`), so the
spec's formula with `d ∈ (-π, π]` disagrees with the code. -/
theorem damp_postcondition_cex :
    dampAngle 0 (-π) 1 1 ≠ 0 + π * (1 - Real.exp (-(1 * 1))) := by
  have hpi := Real.pi_pos
  have hN : normalizeAngle (-π - 0) = -π := by
    rw [show (-π - 0 : ℝ) = -π by ring, normalizeAngle_neg_pi]
  have hL : dampAngle 0 (-π) 1 1 = -π * (1 - Real.exp (-1)) := by
    rw [show dampAngle 0 (-π) 1 1
          = 0 + normalizeAngle (-π - 0) * (1 - Real.exp (-1 * 1)) from rfl, hN]
    norm_num
  rw [hL]
  have hexp : Real.exp (-1 : ℝ) < 1 := by
    rw [Real.exp_lt_one_iff]
    norm_num
  have hexp2 : (0:ℝ) < Real.exp (-1) := Real.exp_pos _
  intro h
  rw [show (-(1 * 1) : ℝ) = -1 by norm_num] at h
  nlinarith [h]

/-- C3 amended: `dampAngle` equals
`current + d * (1 - exp (-(smoothingRate * dt)))` where `d` is the
normalized difference lying in the closed interval `[-π, π]` (not the
half-open `(-π, π]`: raw differences congruent to `-π` from below keep
the representative `-π`), congruent to `target - current` modulo `2π`;
`dt = 0` returns `current`, and damping from `350°` toward `10°` uses the
`+20°` shortest difference. -/
theorem damp_postcondition (current target smoothing dt : ℝ) :
    dampAngle current target smoothing dt =
      current + normalizeAngle (target - current) * (1 - Real.exp (-(smoothing * dt)))
    ∧ (∃ k : ℤ, normalizeAngle (target - current) = target - current - TWO_PI * k)
    ∧ (-π ≤ normalizeAngle (target - current) ∧ normalizeAngle (target - current) ≤ π)
    ∧ dampAngle current target smoothing 0 = current
    ∧ normalizeAngle ((10 - 350) * π / 180) = 20 * π / 180 := by
  have hpi := Real.pi_pos
  refine ⟨by unfold dampAngle; rw [neg_mul], normalizeAngle_sub_int _,
    normalizeAngle_mem _, dampAngle_zero_dt _ _ _, ?_⟩
  apply normalizeAngle_eq_of
  · nlinarith
  · nlinarith
  · refine ⟨-1, ?_⟩
    unfold TWO_PI
    push_cast
    ring

/-- C4 counterexample: the damper's `normalizeAngle` maps `3π/2` to
`-π/2`, a negative value, so the normalizer used by the Rotation Damper
does not return values in `[0, 2π)`. -/
theorem normalize_contract_cex : normalizeAngle (3 * π / 2) < 0 := by
  have hpi := Real.pi_pos
  have h2 : TWO_PI = 2 * π := by unfold TWO_PI; ring
  have hdiv : (3 * π / 2) / TWO_PI = 3 / 4 := by
    rw [h2, div_eq_iff (by positivity)]
    ring
  have hq : 0 ≤ (3 * π / 2) / TWO_PI := by rw [hdiv]; norm_num
  have hfloor : ⌊(3 * π / 2) / TWO_PI⌋ = 0 := by
    rw [hdiv]
    norm_num
  have hrem : jsRem (3 * π / 2) TWO_PI = 3 * π / 2 := by
    unfold jsRem
    rw [if_pos hq, hfloor]
    push_cast
    ring
  rw [normalizeAngle_eq, hrem]
  have hinner : ¬ (3 * π / 2 < -π) := by push_neg; linarith
  rw [if_neg hinner]
  rw [if_pos (show 3 * π / 2 > π by linarith)]
  rw [h2]
  linarith

/-- C4 amended: the code has two distinct normalizers. The Zone
Resolver's inline `((a % 2π) + 2π) % 2π` returns a value in `[0, 2π)` and
is invariant under adding `2π·k`; the Rotation Damper's `normalizeAngle`
instead returns a value in `[-π, π]` congruent to its argument modulo
`2π`. -/
theorem normalize_contract (a : ℝ) (k : ℤ) :
    (0 ≤ zoneNormalize a ∧ zoneNormalize a < TWO_PI)
    ∧ zoneNormalize (a + TWO_PI * k) = zoneNormalize a
    ∧ (-π ≤ normalizeAngle a ∧ normalizeAngle a ≤ π)
    ∧ (∃ m : ℤ, normalizeAngle a = a - TWO_PI * m) :=
  ⟨zoneNormalize_mem a, zoneNormalize_periodic a k, normalizeAngle_mem a,
    normalizeAngle_sub_int a⟩

lemma find_first {α : Type} (p : α → Bool) (l : List α) :
    (∃ x, l.find? p = some x ∧ p x = true ∧
       ∃ l1 l2, l = l1 ++ x :: l2 ∧ ∀ w ∈ l1, p w = false)
    ∨ (l.find? p = none ∧ ∀ w ∈ l, p w = false) := by
  induction l with
  | nil => exact Or.inr ⟨rfl, by simp⟩
  | cons a l ih =>
    by_cases ha : p a = true
    · refine Or.inl ⟨a, ?_, ha, [], l, rfl, by simp⟩
      simp [List.find?, ha]
    · have hfa : p a = false := by simpa using ha
      have hcons : (a :: l).find? p = l.find? p := by simp [List.find?, hfa]
      rcases ih with ⟨x, hfind, hx, l1, l2, hl, hprev⟩ | ⟨hfind, hall⟩
      · refine Or.inl ⟨x, by rw [hcons]; exact hfind, hx, a :: l1, l2, by rw [hl]; rfl, ?_⟩
        intro w hw
        rcases List.mem_cons.mp hw with rfl | hw2
        · exact hfa
        · exact hprev w hw2
      · refine Or.inr ⟨by rw [hcons]; exact hfind, ?_⟩
        intro w hw
        rcases List.mem_cons.mp hw with rfl | hw2
        · exact hfa
        · exact hall w hw2

/-- C2: zone resolution policy of `Zones.getActiveZone`: the result is
`none` iff the zone list is empty; for a non-empty list the rotation is
normalized and the first zone in construction order containing it is
returned, with the first zone of the list as fallback when no zone
contains it — so the result is never `none` for a non-empty list. -/
theorem zone_resolution (zs : Zones) (r : ℝ) :
    (zs.getActiveZone r = none ↔ zs.zones = [])
    ∧ (zs.zones ≠ [] → ∃ z, zs.getActiveZone r = some z ∧
        ((Zones.isWithinZone (zoneNormalize r) z = true ∧
          ∃ l1 l2, zs.zones = l1 ++ z :: l2 ∧
            ∀ w ∈ l1, Zones.isWithinZone (zoneNormalize r) w = false)
         ∨ ((∀ w ∈ zs.zones, Zones.isWithinZone (zoneNormalize r) w = false) ∧
            zs.zones.head? = some z))) := by
  obtain ⟨l⟩ := zs
  cases l with
  | nil =>
    refine ⟨by simp [Zones.getActiveZone], fun h => absurd rfl h⟩
  | cons z0 rest =>
    constructor
    · simp [Zones.getActiveZone]
    · intro _
      rcases find_first (fun zone => Zones.isWithinZone (zoneNormalize r) zone) (z0 :: rest)
        with ⟨x, hfind, hx, l1, l2, hl, hprev⟩ | ⟨hfind, hall⟩
      · refine ⟨x, ?_, Or.inl ⟨hx, l1, l2, hl, hprev⟩⟩
        simp only [Zones.getActiveZone]
        rw [hfind]
        rfl
      · refine ⟨z0, ?_, Or.inr ⟨hall, rfl⟩⟩
        simp only [Zones.getActiveZone]
        rw [hfind]
        rfl

/-- Witness for `zone_resolution`: the empty zone set resolves to `none`,
and a concrete one-zone set resolves to a zone satisfying the first-match
or-fallback characterization. -/
theorem zone_resolution_witness :
    ((Zones.mk []).getActiveZone 0 = none)
    ∧ (∃ z, (Zones.mk [Zone.mk "a" 0 1]).getActiveZone 0 = some z ∧
        ((Zones.isWithinZone (zoneNormalize 0) z = true ∧
          ∃ l1 l2, (Zones.mk [Zone.mk "a" 0 1]).zones = l1 ++ z :: l2 ∧
            ∀ w ∈ l1, Zones.isWithinZone (zoneNormalize 0) w = false)
         ∨ ((∀ w ∈ (Zones.mk [Zone.mk "a" 0 1]).zones,
              Zones.isWithinZone (zoneNormalize 0) w = false) ∧
            (Zones.mk [Zone.mk "a" 0 1]).zones.head? = some z))) :=
  ⟨(zone_resolution (Zones.mk []) 0).1.mpr rfl,
   (zone_resolution (Zones.mk [Zone.mk "a" 0 1]) 0).2 (by simp)⟩

/-- C5 counterexample: with a negative smoothing rate the damped step can
leave the `(-π, π)` band, so chunking `dt` is not equivalent: two unit
steps at rate `-1` from `0` toward `3` land elsewhere than one double
step. -/
theorem damp_chunking_cex :
    dampAngle (dampAngle 0 3 (-1) 1) 3 (-1) 1 ≠ dampAngle 0 3 (-1) 2 := by
  have hpi := Real.pi_gt_d2
  have hpiu := Real.pi_lt_d2
  have hE := Real.exp_one_gt_d9
  have hEu := Real.exp_one_lt_d9
  have h2pi : TWO_PI = 2 * π := by unfold TWO_PI; ring
  have hN3 : normalizeAngle (3 - 0 : ℝ) = 3 := by
    apply normalizeAngle_eq_of
    · linarith
    · linarith
    · exact ⟨0, by push_cast; ring⟩
  have hinner : dampAngle 0 3 (-1) 1 = 3 * (1 - Real.exp 1) := by
    rw [show dampAngle 0 3 (-1) 1
          = 0 + normalizeAngle (3 - 0) * (1 - Real.exp (-(-1) * 1)) from rfl, hN3]
    norm_num
  have hN2 : normalizeAngle (3 - dampAngle 0 3 (-1) 1) = 3 * Real.exp 1 - TWO_PI := by
    rw [hinner, show (3 : ℝ) - 3 * (1 - Real.exp 1) = 3 * Real.exp 1 by ring]
    apply normalizeAngle_eq_of
    · rw [h2pi]
      linarith
    · rw [h2pi]
      linarith
    · exact ⟨1, by push_cast; ring⟩
  intro h
  rw [show dampAngle (dampAngle 0 3 (-1) 1) 3 (-1) 1
        = dampAngle 0 3 (-1) 1
          + normalizeAngle (3 - dampAngle 0 3 (-1) 1) * (1 - Real.exp (-(-1) * 1)) from rfl,
     hN2, hinner] at h
  rw [show dampAngle 0 3 (-1) 2
        = 0 + normalizeAngle (3 - 0) * (1 - Real.exp (-(-1) * 2)) from rfl, hN3] at h
  rw [show (-(-1:ℝ) * 1) = 1 by norm_num, show (-(-1:ℝ) * 2) = 1 + 1 by norm_num,
     Real.exp_add, h2pi] at h
  nlinarith [h]

/-- C5 amended: with `smoothingRate >= 0` (as in the app, which uses the
constant `8`) and `dt1, dt2 >= 0`, damping for `dt1` and then `dt2`
equals damping once for `dt1 + dt2`. -/
theorem damp_chunking (c t s dt1 dt2 : ℝ) (hs : 0 ≤ s) (h1 : 0 ≤ dt1) (_h2 : 0 ≤ dt2) :
    dampAngle (dampAngle c t s dt1) t s dt2 = dampAngle c t s (dt1 + dt2) := by
  have hexp : Real.exp (-s * (dt1 + dt2)) = Real.exp (-s * dt1) * Real.exp (-s * dt2) := by
    rw [← Real.exp_add]
    ring_nf
  rcases eq_or_lt_of_le (mul_nonneg hs h1) with hz | hpos
  · have hsdt1 : s * dt1 = 0 := hz.symm
    have he1 : Real.exp (-s * dt1) = 1 := by
      rw [show -s * dt1 = -(s * dt1) by ring, hsdt1]
      simp [Real.exp_zero]
    have hc1 : dampAngle c t s dt1 = c := by
      unfold dampAngle
      rw [he1]
      ring
    rw [hc1]
    unfold dampAngle
    rw [show -s * (dt1 + dt2) = -s * dt2 by linear_combination (-1 : ℝ) * hsdt1]
  · have hstep := damp_step_normalize c t s dt1 hpos
    have hL : dampAngle (dampAngle c t s dt1) t s dt2
        = dampAngle c t s dt1
          + (Real.exp (-s * dt1) * normalizeAngle (t - c)) * (1 - Real.exp (-s * dt2)) := by
      rw [show dampAngle (dampAngle c t s dt1) t s dt2
            = dampAngle c t s dt1
              + normalizeAngle (t - dampAngle c t s dt1) * (1 - Real.exp (-s * dt2)) from rfl,
         hstep]
    rw [hL,
       show dampAngle c t s dt1
          = c + normalizeAngle (t - c) * (1 - Real.exp (-s * dt1)) from rfl,
       show dampAngle c t s (dt1 + dt2)
          = c + normalizeAngle (t - c) * (1 - Real.exp (-s * (dt1 + dt2))) from rfl,
       hexp]
    ring

/-- Witness for `damp_chunking` at `current = 0`, `target = 1`, the app's
`smoothingRate = 8`, and two frames of `dt = 1`. -/
theorem damp_chunking_witness :
    (0:ℝ) ≤ 8 ∧ (0:ℝ) ≤ 1 ∧
    dampAngle (dampAngle 0 1 8 1) 1 8 1 = dampAngle 0 1 8 (1 + 1) :=
  ⟨by norm_num, by norm_num,
   damp_chunking 0 1 8 1 1 (by norm_num) (by norm_num) (by norm_num)⟩

lemma damp_iter_normalize (t s dt c : ℝ) (h : 0 < s * dt) (n : ℕ) :
    normalizeAngle (t - dampIter t s dt c n)
      = (Real.exp (-s * dt)) ^ n * normalizeAngle (t - c) := by
  induction n with
  | zero => simp [dampIter]
  | succ n ih =>
    rw [show dampIter t s dt c (n + 1) = dampAngle (dampIter t s dt c n) t s dt from rfl,
       damp_step_normalize _ t s dt h, ih]
    ring

/-- C6 counterexample: starting exactly at the target the angular
distance is already `0` and stays `0`, so it does not strictly decrease
at every step for every starting `current`. -/
theorem damp_convergence_cex :
    ¬ (angularDist (dampIter 0 1 1 0 1) 0 < angularDist (dampIter 0 1 1 0 0) 0) := by
  have hN0 : normalizeAngle (0 - 0 : ℝ) = 0 := by
    apply normalizeAngle_eq_of
    · linarith [Real.pi_pos]
    · linarith [Real.pi_pos]
    · exact ⟨0, by push_cast; ring⟩
  have h1 : dampIter 0 1 1 0 1 = 0 := by
    rw [show dampIter 0 1 1 0 1 = dampAngle (dampIter 0 1 1 0 0) 0 1 1 from rfl,
       show dampIter 0 1 1 0 0 = (0:ℝ) from rfl,
       show dampAngle 0 0 1 1 = 0 + normalizeAngle (0 - 0) * (1 - Real.exp (-1 * 1)) from rfl,
       hN0]
    ring
  rw [h1, show dampIter 0 1 1 0 0 = (0:ℝ) from rfl]
  exact lt_irrefl _

/-- C6 amended: with `smoothingRate > 0` and `dt > 0`, iterated damping
strictly decreases the angular distance at every step whenever the
starting distance is nonzero (at distance zero it stays zero), and for
every `ε > 0` the distance is below `ε` from some step index on. -/
theorem damp_convergence (t s dt c : ℝ) (hs : 0 < s) (hdt : 0 < dt) :
    (angularDist c t ≠ 0 →
      ∀ n : ℕ, angularDist (dampIter t s dt c (n + 1)) t
        < angularDist (dampIter t s dt c n) t)
    ∧ (∀ ε : ℝ, 0 < ε →
        ∃ N : ℕ, ∀ n : ℕ, N ≤ n → angularDist (dampIter t s dt c n) t < ε) := by
  have hmul : 0 < s * dt := mul_pos hs hdt
  set e := Real.exp (-s * dt) with he
  have hepos : 0 < e := Real.exp_pos _
  have helt : e < 1 := by
    rw [he, Real.exp_lt_one_iff]
    nlinarith
  have hdist : ∀ n, angularDist (dampIter t s dt c n) t = e ^ n * angularDist c t := by
    intro n
    unfold angularDist
    rw [show dampIter t s dt c n = dampIter t s dt c n from rfl,
       damp_iter_normalize t s dt c hmul n, abs_mul, abs_pow, abs_of_pos hepos]
  constructor
  · intro hne n
    rw [hdist, hdist]
    have hpos : 0 < angularDist c t := lt_of_le_of_ne (abs_nonneg _) (Ne.symm hne)
    have hpow : e ^ (n + 1) < e ^ n := by
      have := pow_lt_pow_right_of_lt_one₀ hepos helt (Nat.lt_succ_self n)
      exact this
    exact mul_lt_mul_of_pos_right hpow hpos
  · intro ε hε
    have hDle : angularDist c t ≤ π := by
      unfold angularDist
      obtain ⟨hl, hu⟩ := normalizeAngle_mem (t - c)
      exact abs_le.mpr ⟨hl, hu⟩
    have hDnn : 0 ≤ angularDist c t := abs_nonneg _
    have hπ1 : 0 < π + 1 := by positivity
    obtain ⟨N, hN⟩ := exists_pow_lt_of_lt_one (show 0 < ε / (π + 1) by positivity) helt
    refine ⟨N, fun n hn => ?_⟩
    rw [hdist]
    have hmono : e ^ n ≤ e ^ N := pow_le_pow_of_le_one hepos.le helt.le hn
    have hNnn : 0 ≤ e ^ N := pow_nonneg hepos.le N
    have hπ := Real.pi_pos
    calc e ^ n * angularDist c t ≤ e ^ N * π := by
          nlinarith [pow_nonneg hepos.le n]
      _ < (ε / (π + 1)) * π := mul_lt_mul_of_pos_right hN hπ
      _ < ε := by
          rw [div_mul_eq_mul_div, div_lt_iff₀ hπ1]
          nlinarith

/-- Witness for `damp_convergence` at `target = 0`, `smoothingRate = 1`,
`dt = 1`, starting `current = 1`. -/
theorem damp_convergence_witness :
    (0:ℝ) < 1 ∧
    ((angularDist 1 0 ≠ 0 →
      ∀ n : ℕ, angularDist (dampIter 0 1 1 1 (n + 1)) 0
        < angularDist (dampIter 0 1 1 1 n) 0)
     ∧ (∀ ε : ℝ, 0 < ε →
        ∃ N : ℕ, ∀ n : ℕ, N ≤ n → angularDist (dampIter 0 1 1 1 n) 0 < ε)) :=
  ⟨by norm_num, damp_convergence 0 1 1 1 (by norm_num) (by norm_num)⟩

/-- C8 counterexample: the `Zones` constructor itself accepts zero
ranges without any error — it yields a `Zones` with an empty list, on
which `getActiveZone` is callable and returns `none`. -/
theorem zero_range_cex :
    (Zones.ofLocations []).zones = [] ∧
    (Zones.ofLocations []).getActiveZone 0 = none :=
  ⟨rfl, rfl⟩

/-- C8 amended: the fatal configuration error for an empty location list
is raised by the caller `App.init`, which validates the fetched list and
fails with `No locations data available` before constructing `Zones`;
the `Zones` constructor itself accepts zero ranges, and `getActiveZone`
on the resulting empty set returns `none`. -/
theorem zero_range_guard (locs : List Location) :
    initZones [] = Except.error "No locations data available"
    ∧ (locs ≠ [] → initZones locs = Except.ok (Zones.ofLocations locs))
    ∧ (Zones.ofLocations []).getActiveZone 0 = none := by
  refine ⟨rfl, fun h => ?_, rfl⟩
  unfold initZones validateLocations
  rw [if_neg (by rw [List.length_eq_zero]; exact h)]
  rfl

/-- Witness for `zero_range_guard`: a non-empty list passes validation
and is constructed. -/
theorem zero_range_guard_witness :
    ([aboutLoc] : List Location) ≠ [] ∧
    initZones [aboutLoc] = Except.ok (Zones.ofLocations [aboutLoc]) :=
  ⟨by simp, (zero_range_guard [aboutLoc]).2.1 (by simp)⟩

/-- C9 counterexample: the constructor converts degrees to radians
without normalizing, so a location with a 720° start angle is stored
with `startRad = 4π`, outside `[0, 2π)`. -/
theorem construction_invariant_cex :
    ∃ z : Zone, (Zones.ofLocations [Location.mk "x" 720 30]).zones = [z] ∧
      TWO_PI ≤ z.startRad := by
  refine ⟨locToZone (Location.mk "x" 720 30), rfl, ?_⟩
  show TWO_PI ≤ (720 : ℝ) * π / 180
  rw [show (720 : ℝ) * π / 180 = 4 * π by ring]
  unfold TWO_PI
  linarith [Real.pi_pos]

/-- C9 amended: the constructor stores `deg * π / 180` unchanged, so the
`[0, 2π)` invariant holds exactly when every input degree value lies in
`[0, 360)` — true of the repository's static location data — and a stored
range is wrapped (`startRad > endRad`) iff its start degree exceeds its
end degree. -/
theorem construction_invariant (locs : List Location)
    (h : ∀ l ∈ locs, 0 ≤ l.startAngleDeg ∧ l.startAngleDeg < 360 ∧
         0 ≤ l.endAngleDeg ∧ l.endAngleDeg < 360) :
    (∀ z ∈ (Zones.ofLocations locs).zones,
       0 ≤ z.startRad ∧ z.startRad < TWO_PI ∧ 0 ≤ z.endRad ∧ z.endRad < TWO_PI)
    ∧ (∀ l : Location,
        (locToZone l).endRad < (locToZone l).startRad ↔ l.endAngleDeg < l.startAngleDeg) := by
  have hpi := Real.pi_pos
  have h2pi : TWO_PI = 2 * π := by unfold TWO_PI; ring
  constructor
  · intro z hz
    obtain ⟨l, hl, rfl⟩ := List.mem_map.mp hz
    obtain ⟨hs0, hs1, he0, he1⟩ := h l hl
    unfold locToZone
    refine ⟨?_, ?_, ?_, ?_⟩ <;> [skip; rw [h2pi]; skip; rw [h2pi]] <;> simp only [] <;>
      nlinarith
  · intro l
    unfold locToZone
    simp only []
    constructor
    · intro hlt
      nlinarith
    · intro hlt
      nlinarith

/-- Witness for `construction_invariant` on the repository's static
location data: all four content records have degree ranges within
`[0, 360)`, hence radian ranges within `[0, 2π)`. -/
theorem construction_invariant_witness :
    (∀ l ∈ locations, 0 ≤ l.startAngleDeg ∧ l.startAngleDeg < 360 ∧
       0 ≤ l.endAngleDeg ∧ l.endAngleDeg < 360)
    ∧ ((∀ z ∈ (Zones.ofLocations locations).zones,
          0 ≤ z.startRad ∧ z.startRad < TWO_PI ∧ 0 ≤ z.endRad ∧ z.endRad < TWO_PI)
       ∧ (∀ l : Location,
           (locToZone l).endRad < (locToZone l).startRad ↔
             l.endAngleDeg < l.startAngleDeg)) := by
  have hcontent : ∀ l ∈ locations, 0 ≤ l.startAngleDeg ∧ l.startAngleDeg < 360 ∧
      0 ≤ l.endAngleDeg ∧ l.endAngleDeg < 360 := by
    intro l hl
    simp only [locations, List.mem_cons, List.not_mem_nil, or_false] at hl
    rcases hl with rfl | rfl | rfl | rfl <;>
      norm_num [aboutLoc, projectsLoc, labsLoc, contactLoc]
  exact ⟨hcontent, construction_invariant locations hcontent⟩

end ZaydWorld
